import Mathlib

/-!
Shallow embedding of the pdf2qa core (src/utils.py): the paragraph
chunker chunk_text and the question/answer response parser
parse_qa_response.  Python strings are modelled as lists of characters;
Python ints as Int.
-/

/-- A Python string, modelled as a list of characters. -/
abbrev Str := List Char

/-- Python s.split of a string on the newline character: splitting an
empty string yields one empty part, and every newline starts a new part. -/
def splitOnNl : Str → List Str
  | [] => [[]]
  | c :: rest =>
    match splitOnNl rest with
    | [] => [[]]
    | p :: ps => if c = '\n' then [] :: p :: ps else (c :: p) :: ps

/-- The double-newline separator appended after each paragraph. -/
def sep : Str := ['\n', '\n']

/-- The paragraph loop of chunk_text: the accumulated chunk list, the
current buffer, and the remaining paragraphs. -/
def chunkLoop (max_length : Int) : List Str → List Str → Str → List Str
  | [], chunks, cur => if cur = [] then chunks else chunks ++ [cur]
  | p :: ps, chunks, cur =>
    if (cur.length : Int) + (p.length : Int) ≤ max_length then
      chunkLoop max_length ps chunks (cur ++ p ++ sep)
    else
      chunkLoop max_length ps (chunks ++ [cur]) (p ++ sep)

/-- chunk_text from src/utils.py: split the text on newlines and greedily
pack paragraphs (each followed by the separator) into chunks, starting a
new chunk whenever the length check fails. -/
def chunk_text (text : Str) (max_length : Int) : List Str :=
  chunkLoop max_length (splitOnNl text) [] []

/-- Each paragraph followed by the separator, concatenated. -/
def padded (ps : List Str) : Str := (ps.map (fun p => p ++ sep)).flatten

/-- Python s.split of a string on the two-character double-newline
separator. -/
def splitOnSep : Str → List Str
  | '\n' :: '\n' :: rest => [] :: splitOnSep rest
  | c :: rest =>
    match splitOnSep rest with
    | [] => [[c]]
    | p :: ps => (c :: p) :: ps
  | [] => [[]]

theorem splitOnNl_ne_nil (s : Str) : splitOnNl s ≠ [] := by
  cases s with
  | nil => simp [splitOnNl]
  | cons c rest =>
    simp only [splitOnNl]
    cases splitOnNl rest with
    | nil => simp
    | cons p ps =>
      by_cases h : c = '\n' <;> simp [h]

theorem chunkLoop_flatten (m : Int) :
    ∀ (ps : List Str) (chunks : List Str) (cur : Str),
      (chunkLoop m ps chunks cur).flatten = chunks.flatten ++ cur ++ padded ps := by
  intro ps
  induction ps with
  | nil =>
    intro chunks cur
    by_cases h : cur = [] <;> simp [chunkLoop, h, padded]
  | cons p ps ih =>
    intro chunks cur
    by_cases h : (cur.length : Int) + (p.length : Int) ≤ m
    · simp only [chunkLoop, if_pos h, ih]
      simp [padded]
    · simp only [chunkLoop, if_neg h, ih]
      simp [padded]

theorem chunk_text_flatten (text : Str) (m : Int) :
    (chunk_text text m).flatten = padded (splitOnNl text) := by
  simp [chunk_text, chunkLoop_flatten]

theorem splitOnSep_cons (c : Char) (t : Str) (hc : c ≠ '\n') :
    splitOnSep (c :: t) =
      match splitOnSep t with
      | [] => [[c]]
      | p :: ps => (c :: p) :: ps := by
  rw [splitOnSep.eq_def]
  split
  · rename_i h
    injection h with h1 h2
    exact absurd h1 hc
  · rename_i c' rest h
    injection h with h1 h2
    subst h1; subst h2
    rfl
  · rename_i h
    exact absurd h (by simp)

theorem splitOnSep_ne_nil (s : Str) : splitOnSep s ≠ [] := by
  rw [splitOnSep.eq_def]
  split
  · simp
  · rename_i c' rest h
    cases splitOnSep rest <;> simp
  · simp

theorem splitOnSep_sep_append (p t : Str) (hp : '\n' ∉ p) :
    splitOnSep (p ++ '\n' :: '\n' :: t) = p :: splitOnSep t := by
  induction p with
  | nil => simp [splitOnSep]
  | cons c p ih =>
    have hc : c ≠ '\n' := fun h => hp (by simp [h])
    have hp' : '\n' ∉ p := fun h => hp (by simp [h])
    rw [List.cons_append, splitOnSep_cons c _ hc, ih hp']

theorem splitOnSep_padded (ps : List Str) (h : ∀ p ∈ ps, '\n' ∉ p) :
    splitOnSep (padded ps) = ps ++ [[]] := by
  induction ps with
  | nil => simp [padded, splitOnSep]
  | cons p ps ih =>
    have hp : '\n' ∉ p := h p (by simp)
    have hps : ∀ q ∈ ps, '\n' ∉ q := fun q hq => h q (by simp [hq])
    have : padded (p :: ps) = p ++ '\n' :: '\n' :: padded ps := by
      simp [padded, sep]
    rw [this, splitOnSep_sep_append p _ hp, ih hps]
    simp

theorem chunkLoop_length_bound (m : Int) (hm : 0 < m) (P : List Str) :
    ∀ (ps : List Str), (∀ p ∈ ps, p ∈ P) →
    ∀ (chunks : List Str) (cur : Str),
      (∀ c ∈ chunks, (c.length : Int) ≤ m + 2 ∨ ∃ p ∈ P, c = p ++ sep ∧ m < (p.length : Int)) →
      (cur = [] ∨ (cur.length : Int) ≤ m + 2 ∨ ∃ p ∈ P, cur = p ++ sep ∧ m < (p.length : Int)) →
      ∀ c ∈ chunkLoop m ps chunks cur,
        (c.length : Int) ≤ m + 2 ∨ ∃ p ∈ P, c = p ++ sep ∧ m < (p.length : Int) := by
  intro ps
  induction ps with
  | nil =>
    intro _ chunks cur hchunks hcur c hc
    simp only [chunkLoop] at hc
    by_cases h : cur = []
    · rw [if_pos h] at hc; exact hchunks c hc
    · rw [if_neg h] at hc
      rcases List.mem_append.mp hc with h1 | h1
      · exact hchunks c h1
      · have hceq : c = cur := by simpa using h1
        subst hceq
        rcases hcur with rfl | hcur
        · exact absurd rfl h
        · exact hcur
  | cons p ps ih =>
    intro hmem chunks cur hchunks hcur
    have hpP : p ∈ P := hmem p (by simp)
    have hmem' : ∀ q ∈ ps, q ∈ P := fun q hq => hmem q (by simp [hq])
    simp only [chunkLoop]
    by_cases h : (cur.length : Int) + (p.length : Int) ≤ m
    · rw [if_pos h]
      refine ih hmem' chunks (cur ++ p ++ sep) hchunks (Or.inr (Or.inl ?_))
      have hlen : (cur ++ p ++ sep).length = cur.length + p.length + 2 := by
        simp [sep]; omega
      rw [hlen]; push_cast; linarith
    · rw [if_neg h]
      refine ih hmem' (chunks ++ [cur]) (p ++ sep) ?_ ?_
      · intro c hc
        rcases List.mem_append.mp hc with h1 | h1
        · exact hchunks c h1
        · have hceq : c = cur := by simpa using h1
          subst hceq
          rcases hcur with rfl | hcur
          · left; simp; linarith
          · exact hcur
      · by_cases hp : (p.length : Int) ≤ m
        · right; left
          have hlen : (p ++ sep).length = p.length + 2 := by simp [sep]
          rw [hlen]; push_cast; linarith
        · right; right
          exact ⟨p, hpP, rfl, by linarith⟩

theorem chunkLoop_ne_nil (m : Int) :
    ∀ (ps : List Str) (chunks : List Str) (cur : Str),
      ps ≠ [] ∨ cur ≠ [] ∨ chunks ≠ [] → chunkLoop m ps chunks cur ≠ [] := by
  intro ps
  induction ps with
  | nil =>
    intro chunks cur h
    simp only [chunkLoop]
    by_cases hcur : cur = []
    · rw [if_pos hcur]
      rcases h with h | h | h
      · exact absurd rfl h
      · exact absurd hcur h
      · exact h
    · rw [if_neg hcur]; simp
  | cons p ps ih =>
    intro chunks cur h
    simp only [chunkLoop]
    by_cases hle : (cur.length : Int) + (p.length : Int) ≤ m
    · rw [if_pos hle]
      apply ih; right; left; simp [sep]
    · rw [if_neg hle]
      apply ih; right; left; simp [sep]

theorem splitOnNl_no_newline (s : Str) : ∀ p ∈ splitOnNl s, '\n' ∉ p := by
  induction s with
  | nil => simp [splitOnNl]
  | cons c rest ih =>
    intro p hp
    simp only [splitOnNl] at hp
    rcases hq : splitOnNl rest with _ | ⟨q, qs⟩
    · exact absurd hq (splitOnNl_ne_nil rest)
    · rw [hq] at hp
      by_cases hc : c = '\n'
      · simp only [if_pos hc] at hp
        rcases List.mem_cons.mp hp with hp | hp
        · simp [hp]
        · exact ih p (by rw [hq]; exact hp)
      · simp only [if_neg hc] at hp
        rcases List.mem_cons.mp hp with hp | hp
        · subst hp
          intro hmem
          rcases List.mem_cons.mp hmem with h1 | h1
          · exact hc h1.symm
          · exact ih q (by rw [hq]; simp) h1
        · exact ih p (by rw [hq]; simp [hp])

/-- C1 counterexample: on text "a" with maxLength 2 the single returned
chunk is "a\n\n" of length 3 > 2, yet no paragraph of the text has length
exceeding 2, so the claimed disjunction fails. -/
theorem chunk_length_claim_cex :
    ¬ (∀ c ∈ chunk_text ['a'] 2, (c.length : Int) ≤ 2 ∨
        ∃ p ∈ splitOnNl ['a'], 2 < (p.length : Int)) := by decide

/-- C1 amended: for non-empty text and maxLength > 0, every chunk produced
by chunk_text has length at most maxLength + 2 (the trailing double-newline
separator is not counted by the length check), or else the chunk is exactly
one paragraph plus the separator where that paragraph's own length exceeds
maxLength. -/
theorem chunk_length_bound (text : Str) (m : Int) (_htext : text ≠ []) (hm : 0 < m) :
    ∀ c ∈ chunk_text text m,
      (c.length : Int) ≤ m + 2 ∨
      ∃ p ∈ splitOnNl text, c = p ++ sep ∧ m < (p.length : Int) := by
  intro c hc
  exact chunkLoop_length_bound m hm (splitOnNl text) (splitOnNl text)
    (fun p hp => hp) [] [] (by simp) (Or.inl rfl) c hc

theorem chunk_length_bound_witness :
    (['a'] : Str) ≠ [] ∧ (0 : Int) < 2 ∧
    ∀ c ∈ chunk_text ['a'] 2,
      (c.length : Int) ≤ 2 + 2 ∨
      ∃ p ∈ splitOnNl ['a'], c = p ++ sep ∧ 2 < (p.length : Int) :=
  ⟨by decide, by decide, chunk_length_bound ['a'] 2 (by decide) (by decide)⟩

/-- C2 counterexample: chunk_text called with maxLength = 0 does not abort
before producing chunks; it silently returns the chunk sequence
["", "a\n\n"] for the text "a". -/
theorem chunk_maxlen_claim_cex :
    chunk_text ['a'] 0 = [[], ['a', '\n', '\n']] ∧ chunk_text ['a'] 0 ≠ [] := by
  decide

/-- C2 amended: chunk_text performs no validation of maxLength; for every
text and every maxLength ≤ 0 the call terminates (no looping) and silently
returns a non-empty chunk sequence instead of failing fast. -/
theorem chunk_maxlen_nonpositive_returns (text : Str) (m : Int) (_hm : m ≤ 0) :
    chunk_text text m ≠ [] := by
  unfold chunk_text
  exact chunkLoop_ne_nil m (splitOnNl text) [] [] (Or.inl (splitOnNl_ne_nil text))

theorem chunk_maxlen_nonpositive_returns_witness :
    (0 : Int) ≤ 0 ∧ chunk_text ['a'] 0 ≠ [] :=
  ⟨le_refl 0, chunk_maxlen_nonpositive_returns ['a'] 0 (le_refl 0)⟩

/-- C3: for every text and maxLength > 0, concatenating the chunks returned
by chunk_text and splitting the result on the double-newline separator
(dropping the final empty piece left by the trailing separator)
reconstructs the original paragraph sequence, i.e. the text split on
newline, losslessly and in order. -/
theorem chunk_concat_lossless (text : Str) (m : Int) (_hm : 0 < m) :
    (splitOnSep (chunk_text text m).flatten).dropLast = splitOnNl text := by
  rw [chunk_text_flatten, splitOnSep_padded _ (splitOnNl_no_newline text)]
  simp

theorem chunk_concat_lossless_witness :
    (0 : Int) < 1 ∧
    (splitOnSep (chunk_text ['a', '\n', 'b'] 1).flatten).dropLast
      = splitOnNl ['a', '\n', 'b'] :=
  ⟨by decide, chunk_concat_lossless ['a', '\n', 'b'] 1 (by decide)⟩

/-- C8: for every maxLength > 0, chunk_text on the empty text returns
exactly one chunk consisting of just the double-newline separator. -/
theorem chunk_empty_text (m : Int) (hm : 0 < m) : chunk_text [] m = [sep] := by
  have h0 : ((([] : Str).length : Int) + ((([] : Str).length : Int)) ≤ m) := by
    simp; linarith
  simp only [chunk_text, splitOnNl, chunkLoop]
  rw [if_pos h0]
  simp only [chunkLoop, List.nil_append]
  rw [if_neg (by simp [sep])]

theorem chunk_empty_text_witness :
    (0 : Int) < 1 ∧ chunk_text [] 1 = [sep] :=
  ⟨by decide, chunk_empty_text 1 (by decide)⟩

/-- Characters removed by Python str.strip with no argument (the ASCII
whitespace characters; the lines handled here never hold other spaces). -/
def pySpace (c : Char) : Bool :=
  c = ' ' || c = '\t' || c = '\n' || c = '\r' || c = '\x0b' || c = '\x0c'

/-- Python s.strip with no argument: remove leading and trailing
whitespace. -/
def strip (s : Str) : Str :=
  ((s.dropWhile pySpace).reverse.dropWhile pySpace).reverse

/-- The text after the first colon of a line, if the line holds one:
Python line.split of the line on a colon with maxsplit 1, keeping only
whether a second part exists and what it is. -/
def afterColon : Str → Option Str
  | [] => none
  | c :: rest => if c = ':' then some rest else afterColon rest

/-- The five question-marker words recognized by parse_qa_response. -/
def qMarkers : List Str :=
  ["Domanda", "Question", "Frage", "Pregunta", "Réponse"].map String.toList

/-- The five answer-marker words recognized by parse_qa_response. -/
def aMarkers : List Str :=
  ["Risposta", "Answer", "Antwort", "Respuesta", "Réponse"].map String.toList

/-- Python line.startswith on a tuple of marker words. -/
def startsWithAny (ms : List Str) (line : Str) : Bool :=
  ms.any (fun mk => mk.isPrefixOf line)

/-- One question/answer record. -/
structure QAPair where
  question : Str
  answer : Str
deriving DecidableEq, Repr

/-- The mutable state of the parse_qa_response loop. -/
structure PState where
  pairs : List QAPair
  current_question : Option Str
  current_answer : Str
  expecting_question : Bool
  expecting_answer : Bool
deriving DecidableEq, Repr

/-- The branch of parse_qa_response taken when the stripped line starts
with a question marker: flush any pending pair, then either take the text
after the colon as the new question or mark that the next line holds it;
the answer accumulator is reset either way. -/
def questionBranch (st : PState) (line : Str) : PState :=
  let pairs :=
    match st.current_question with
    | some q => if q.isEmpty then st.pairs
                else st.pairs ++ [⟨q, strip st.current_answer⟩]
    | none => st.pairs
  match afterColon line with
  | some t =>
    if (strip t).isEmpty then
      ⟨pairs, none, [], true, st.expecting_answer⟩
    else
      ⟨pairs, some (strip t), [], false, st.expecting_answer⟩
  | none => ⟨pairs, none, [], true, st.expecting_answer⟩

/-- The flush performed at an answer marker: emit the pending pair only
when both a question and a non-empty answer are already held. -/
def answerFlush (st : PState) : List QAPair :=
  match st.current_question with
  | some q => if q.isEmpty || st.current_answer.isEmpty then st.pairs
              else st.pairs ++ [⟨q, strip st.current_answer⟩]
  | none => st.pairs

/-- The branch of parse_qa_response taken when the stripped line starts
with an answer marker (and no question marker matched first): flush a
completed pair if any, then either take the text after the colon as the
answer or mark that the next line holds it; the current question is kept. -/
def answerBranch (st : PState) (line : Str) : PState :=
  match afterColon line with
  | some t =>
    if (strip t).isEmpty then
      ⟨answerFlush st, st.current_question, [], st.expecting_question, true⟩
    else
      ⟨answerFlush st, st.current_question, strip t, st.expecting_question, false⟩
  | none => ⟨answerFlush st, st.current_question, [], st.expecting_question, true⟩

/-- One iteration of the parse_qa_response loop on a raw line, following
the source's check order: blank-line skip, question markers, a pending
expected question, answer markers, a pending expected answer, then
continuation handling. -/
def stepLine (st : PState) (raw : Str) : PState :=
  let line := strip raw
  if line.isEmpty then st
  else if startsWithAny qMarkers line then questionBranch st line
  else if st.expecting_question then
    { st with current_question := some line, expecting_question := false }
  else if startsWithAny aMarkers line then answerBranch st line
  else if st.expecting_answer then
    { st with current_answer := line, expecting_answer := false }
  else if !st.current_answer.isEmpty then
    { st with current_answer := st.current_answer ++ ' ' :: line }
  else
    match st.current_question with
    | some q => if q.isEmpty then st else { st with current_answer := line }
    | none => st

/-- The parser state before any line is read. -/
def initState : PState := ⟨[], none, [], false, false⟩

/-- The state after parse_qa_response has consumed every line of the
response text. -/
def parseState (response_text : Str) : PState :=
  (splitOnNl response_text).foldl stepLine initState

/-- The final flush of parse_qa_response: emit the pending question with
its accumulated stripped answer, when a question is held. -/
def finalize (st : PState) : List QAPair :=
  match st.current_question with
  | some q => if q.isEmpty then st.pairs
              else st.pairs ++ [⟨q, strip st.current_answer⟩]
  | none => st.pairs

/-- parse_qa_response from src/utils.py: run the line state machine over
the response text and flush the last pending pair. -/
def parse_qa_response (response_text : Str) : List QAPair :=
  finalize (parseState response_text)

/-- Whether a line holds a colon with non-blank text after it. -/
def colonTailNonempty (line : Str) : Bool :=
  match afterColon line with
  | some t => !(strip t).isEmpty
  | none => false

theorem colonTailNonempty_iff (line : Str) :
    colonTailNonempty line = true ↔
      ∃ t, afterColon line = some t ∧ (strip t).isEmpty = false := by
  unfold colonTailNonempty
  cases hc : afterColon line with
  | none => simp
  | some t => simp

theorem stepLine_q_marker (st : PState) (raw : Str)
    (h : startsWithAny qMarkers (strip raw) = true) :
    stepLine st raw = questionBranch st (strip raw) := by
  have hne : (strip raw).isEmpty = false := by
    cases hs : strip raw with
    | nil => rw [hs] at h; exact absurd h (by decide)
    | cons c t => rfl
  simp only [stepLine]
  simp [hne, h]

theorem stepLine_a_marker (st : PState) (raw : Str)
    (hq : startsWithAny qMarkers (strip raw) = false)
    (ha : startsWithAny aMarkers (strip raw) = true)
    (heq : st.expecting_question = false) :
    stepLine st raw = answerBranch st (strip raw) := by
  have hne : (strip raw).isEmpty = false := by
    cases hs : strip raw with
    | nil => rw [hs] at ha; exact absurd ha (by decide)
    | cons c t => rfl
  simp only [stepLine]
  simp [hne, hq, ha, heq]

theorem questionBranch_some (st : PState) (line t : Str)
    (hc : afterColon line = some t) (ht : (strip t).isEmpty = false) :
    questionBranch st line =
      ⟨(match st.current_question with
        | some q => if q.isEmpty then st.pairs
                    else st.pairs ++ [⟨q, strip st.current_answer⟩]
        | none => st.pairs),
       some (strip t), [], false, st.expecting_answer⟩ := by
  unfold questionBranch
  rw [hc]
  simp [ht]

theorem answerBranch_some (st : PState) (line t : Str)
    (hc : afterColon line = some t) (ht : (strip t).isEmpty = false) :
    answerBranch st line =
      ⟨answerFlush st, st.current_question, strip t, st.expecting_question, false⟩ := by
  unfold answerBranch
  rw [hc]
  simp [ht]

/-- C9: on the five-line input with a bare question marker, a question on
the next line, a bare answer marker, an answer on the next line, and one
continuation line, parse_qa_response returns exactly the one pair whose
answer folds the continuation line in with a single joining space. -/
theorem parse_multiline_example :
    parse_qa_response ("Question 1:\nWhat is X?\nAnswer 1:\nX is Y.\nMore detail.".toList)
      = [⟨"What is X?".toList, "X is Y. More detail.".toList⟩] := by decide

/-- C4: a trimmed non-blank line starting with the word Réponse is always
handled by the question-marker branch of the parser, never by the
answer-marker branch, because the question-marker check comes first in
line order. -/
theorem reponse_treated_as_question (st : PState) (raw : Str)
    (h : ("Réponse".toList).isPrefixOf (strip raw) = true) :
    stepLine st raw = questionBranch st (strip raw) := by
  apply stepLine_q_marker
  have h' : (['R', 'é', 'p', 'o', 'n', 's', 'e'] : List Char) <+: strip raw := by
    simpa using h
  simp [startsWithAny, qMarkers, h']

theorem reponse_treated_as_question_witness :
    ("Réponse".toList).isPrefixOf (strip ("Réponse 1: Quoi?".toList)) = true ∧
    stepLine initState ("Réponse 1: Quoi?".toList)
      = questionBranch initState (strip ("Réponse 1: Quoi?".toList)) :=
  ⟨by decide, reponse_treated_as_question initState ("Réponse 1: Quoi?".toList) (by decide)⟩

/-- C5: when the lines run out while a question is pending, the final
flush still emits a pair holding that question and the accumulated
stripped answer, possibly empty; in particular parsing a lone inline
question with no answer marker yields that question with an empty
answer. -/
theorem trailing_question_flushed :
    (∀ (text : Str) (q : Str),
        (parseState text).current_question = some q → q.isEmpty = false →
        parse_qa_response text
          = (parseState text).pairs
            ++ [⟨q, strip (parseState text).current_answer⟩])
    ∧ parse_qa_response ("Question 1: Q only, no answer marker ever appears".toList)
        = [⟨"Q only, no answer marker ever appears".toList, []⟩] := by
  constructor
  · intro text q hq hne
    unfold parse_qa_response finalize
    rw [hq]
    simp [hne]
  · decide

theorem trailing_question_flushed_witness :
    (parseState ("Question 1: Q only, no answer marker ever appears".toList)).current_question
        = some ("Q only, no answer marker ever appears".toList) ∧
    parse_qa_response ("Question 1: Q only, no answer marker ever appears".toList)
      = (parseState ("Question 1: Q only, no answer marker ever appears".toList)).pairs
        ++ [⟨"Q only, no answer marker ever appears".toList,
             strip (parseState ("Question 1: Q only, no answer marker ever appears".toList)).current_answer⟩] :=
  ⟨by decide,
   trailing_question_flushed.1 ("Question 1: Q only, no answer marker ever appears".toList)
     ("Q only, no answer marker ever appears".toList) (by decide) (by decide)⟩

theorem answerBranch_fields (st : PState) (line : Str) :
    (answerBranch st line).pairs = answerFlush st ∧
    (answerBranch st line).current_question = st.current_question ∧
    (answerBranch st line).expecting_question = st.expecting_question := by
  cases hac : afterColon line with
  | none => simp [answerBranch, hac]
  | some t =>
    by_cases h : (strip t).isEmpty <;> simp [answerBranch, hac, h]

theorem stepLine_no_q (st : PState) (l : Str)
    (hl : startsWithAny qMarkers (strip l) = false)
    (h1 : st.pairs = []) (h2 : st.current_question = none)
    (h3 : st.expecting_question = false) :
    (stepLine st l).pairs = [] ∧ (stepLine st l).current_question = none ∧
    (stepLine st l).expecting_question = false := by
  simp only [stepLine]
  split_ifs with c1 c2 c3 c4 c5 c6
  · exact ⟨h1, h2, h3⟩
  · rw [hl] at c2; exact absurd c2 (by simp)
  · rw [h3] at c3; exact absurd c3 (by simp)
  · obtain ⟨f1, f2, f3⟩ := answerBranch_fields st (strip l)
    refine ⟨?_, ?_, ?_⟩
    · rw [f1]; simp [answerFlush, h2, h1]
    · rw [f2, h2]
    · rw [f3, h3]
  · exact ⟨h1, h2, h3⟩
  · exact ⟨h1, h2, h3⟩
  · simp [h1, h2, h3]

theorem foldl_no_q (ls : List Str) :
    ∀ st : PState, (∀ l ∈ ls, startsWithAny qMarkers (strip l) = false) →
      st.pairs = [] → st.current_question = none → st.expecting_question = false →
      (ls.foldl stepLine st).pairs = [] ∧
      (ls.foldl stepLine st).current_question = none ∧
      (ls.foldl stepLine st).expecting_question = false := by
  induction ls with
  | nil => intro st _ h1 h2 h3; exact ⟨h1, h2, h3⟩
  | cons l ls ih =>
    intro st hall h1 h2 h3
    obtain ⟨g1, g2, g3⟩ := stepLine_no_q st l (hall l (by simp)) h1 h2 h3
    exact ih (stepLine st l) (fun x hx => hall x (by simp [hx])) g1 g2 g3

/-- C6: when no trimmed line of the input starts with a recognized
question or answer marker, parse_qa_response yields the empty pair
sequence without failing; in particular parsing the empty string yields
the empty sequence. -/
theorem no_markers_empty_output :
    (∀ text : Str,
        (∀ l ∈ splitOnNl text, startsWithAny qMarkers (strip l) = false ∧
            startsWithAny aMarkers (strip l) = false) →
        parse_qa_response text = [])
    ∧ parse_qa_response [] = [] := by
  constructor
  · intro text h
    obtain ⟨g1, g2, _⟩ := foldl_no_q (splitOnNl text) initState
      (fun l hl => (h l hl).1) rfl rfl rfl
    unfold parse_qa_response finalize parseState
    rw [g2]
    exact g1
  · decide

theorem no_markers_empty_output_witness :
    (∀ l ∈ splitOnNl ("some text\nwith no markers".toList),
        startsWithAny qMarkers (strip l) = false ∧
        startsWithAny aMarkers (strip l) = false) ∧
    parse_qa_response ("some text\nwith no markers".toList) = [] :=
  ⟨by decide, no_markers_empty_output.1 ("some text\nwith no markers".toList) (by decide)⟩

theorem dropWhile_dropWhile (p : Char → Bool) (l : Str) :
    (l.dropWhile p).dropWhile p = l.dropWhile p := by
  induction l with
  | nil => rfl
  | cons c t ih =>
    by_cases h : p c
    · simp [List.dropWhile_cons, h, ih]
    · simp [List.dropWhile_cons, h]

theorem dropWhile_suffix_exists (p : Char → Bool) (l : Str) :
    ∃ w, l = w ++ l.dropWhile p := by
  induction l with
  | nil => exact ⟨[], rfl⟩
  | cons c t ih =>
    by_cases h : p c
    · obtain ⟨w, hw⟩ := ih
      refine ⟨c :: w, ?_⟩
      simp only [List.dropWhile_cons, h, if_true, List.cons_append]
      rw [← hw]
    · exact ⟨[], by simp [List.dropWhile_cons, h]⟩

theorem length_dropWhile_le_self (p : Char → Bool) (l : Str) :
    (l.dropWhile p).length ≤ l.length := by
  induction l with
  | nil => simp
  | cons c t ih =>
    by_cases h : p c
    · simp only [List.dropWhile_cons, h, if_true]
      exact Nat.le_succ_of_le ih
    · simp [List.dropWhile_cons, h]

theorem dropWhile_head_false (p : Char → Bool) (c : Char) (t : Str)
    (h : (c :: t).dropWhile p = c :: t) : p c = false := by
  by_cases hc : p c
  · exfalso
    rw [List.dropWhile_cons, if_pos hc] at h
    have hlen := congrArg List.length h
    have hle := length_dropWhile_le_self p t
    simp at hlen
    omega
  · simpa using hc

theorem strip_nodrop_left (s : Str) : (strip s).dropWhile pySpace = strip s := by
  obtain ⟨w, hw⟩ := dropWhile_suffix_exists pySpace (s.dropWhile pySpace).reverse
  have hu : s.dropWhile pySpace
      = ((s.dropWhile pySpace).reverse.dropWhile pySpace).reverse ++ w.reverse := by
    calc s.dropWhile pySpace = (s.dropWhile pySpace).reverse.reverse := by
          rw [List.reverse_reverse]
    _ = (w ++ (s.dropWhile pySpace).reverse.dropWhile pySpace).reverse := by rw [← hw]
    _ = ((s.dropWhile pySpace).reverse.dropWhile pySpace).reverse ++ w.reverse := by
          rw [List.reverse_append]
  show (strip s).dropWhile pySpace = strip s
  unfold strip
  cases hv : ((s.dropWhile pySpace).reverse.dropWhile pySpace).reverse with
  | nil => simp
  | cons c t =>
    have hdu : (s.dropWhile pySpace).dropWhile pySpace = s.dropWhile pySpace :=
      dropWhile_dropWhile pySpace s
    rw [hv] at hu
    have hc : pySpace c = false := by
      apply dropWhile_head_false pySpace c (t ++ w.reverse)
      rw [← List.cons_append, ← hu]
      exact hdu
    rw [List.dropWhile_cons, if_neg (by simp [hc])]

theorem strip_eq_self (t : Str) (h1 : t.dropWhile pySpace = t)
    (h2 : t.reverse.dropWhile pySpace = t.reverse) : strip t = t := by
  unfold strip
  rw [h1, h2, List.reverse_reverse]

theorem strip_reverse (s : Str) :
    (strip s).reverse = (s.dropWhile pySpace).reverse.dropWhile pySpace := by
  unfold strip
  rw [List.reverse_reverse]

theorem strip_idem (s : Str) : strip (strip s) = strip s := by
  apply strip_eq_self
  · exact strip_nodrop_left s
  · rw [strip_reverse]
    exact dropWhile_dropWhile pySpace _

theorem questionBranch_pairs_eq (st : PState) (line : Str) :
    (questionBranch st line).pairs =
      (match st.current_question with
       | some q => if q.isEmpty then st.pairs
                   else st.pairs ++ [⟨q, strip st.current_answer⟩]
       | none => st.pairs) := by
  unfold questionBranch
  cases afterColon line with
  | none => rfl
  | some t => by_cases h : (strip t).isEmpty <;> simp [h]

theorem questionBranch_question_eq (st : PState) (line : Str) :
    (questionBranch st line).current_question =
      (match afterColon line with
       | some t => if (strip t).isEmpty then none else some (strip t)
       | none => none) := by
  unfold questionBranch
  cases afterColon line with
  | none => rfl
  | some t => by_cases h : (strip t).isEmpty <;> simp [h]

theorem flush_pairs_inv (st : PState)
    (hp : ∀ pr ∈ st.pairs,
      pr.question ≠ [] ∧ strip pr.question = pr.question ∧ strip pr.answer = pr.answer)
    (hq : ∀ q, st.current_question = some q → q ≠ [] ∧ strip q = q) :
    ∀ pr ∈ ((match st.current_question with
       | some q => if q.isEmpty then st.pairs
                   else st.pairs ++ [⟨q, strip st.current_answer⟩]
       | none => st.pairs) : List QAPair),
      pr.question ≠ [] ∧ strip pr.question = pr.question ∧ strip pr.answer = pr.answer := by
  cases hcq : st.current_question with
  | none => exact hp
  | some q =>
    by_cases hqe : q.isEmpty
    · simp only [hqe, if_true]; exact hp
    · simp only [hqe, Bool.false_eq_true, if_false]
      intro pr hpr
      rcases List.mem_append.mp hpr with h | h
      · exact hp pr h
      · have hpr' : pr = ⟨q, strip st.current_answer⟩ := by simpa using h
        subst hpr'
        obtain ⟨hq1, hq2⟩ := hq q hcq
        exact ⟨hq1, hq2, strip_idem _⟩

theorem stepLine_inv (st : PState) (raw : Str)
    (hp : ∀ pr ∈ st.pairs,
      pr.question ≠ [] ∧ strip pr.question = pr.question ∧ strip pr.answer = pr.answer)
    (hq : ∀ q, st.current_question = some q → q ≠ [] ∧ strip q = q) :
    (∀ pr ∈ (stepLine st raw).pairs,
      pr.question ≠ [] ∧ strip pr.question = pr.question ∧ strip pr.answer = pr.answer) ∧
    (∀ q, (stepLine st raw).current_question = some q → q ≠ [] ∧ strip q = q) := by
  simp only [stepLine]
  split_ifs with c1 c2 c3 c4 c5 c6
  · exact ⟨hp, hq⟩
  · constructor
    · rw [questionBranch_pairs_eq]
      exact flush_pairs_inv st hp hq
    · intro q hh
      rw [questionBranch_question_eq] at hh
      cases hac : afterColon (strip raw) with
      | none => rw [hac] at hh; cases hh
      | some t =>
        rw [hac] at hh
        by_cases hte : (strip t).isEmpty
        · simp [hte] at hh
        · simp only [hte, Bool.false_eq_true, if_false, Option.some.injEq] at hh
          subst hh
          refine ⟨?_, strip_idem t⟩
          intro hcon
          apply hte
          rw [hcon]
          rfl
  · constructor
    · exact hp
    · intro q hh
      simp only [Option.some.injEq] at hh
      subst hh
      refine ⟨?_, strip_idem raw⟩
      intro hcon
      apply c1
      rw [hcon]
      rfl
  · obtain ⟨f1, f2, _⟩ := answerBranch_fields st (strip raw)
    constructor
    · rw [f1]
      unfold answerFlush
      cases hcq : st.current_question with
      | none => exact hp
      | some q =>
        by_cases hcb : (q.isEmpty || st.current_answer.isEmpty)
        · simp only [hcb, if_true]; exact hp
        · simp only [hcb, Bool.false_eq_true, if_false]
          intro pr hpr
          rcases List.mem_append.mp hpr with h | h
          · exact hp pr h
          · have hpr' : pr = ⟨q, strip st.current_answer⟩ := by simpa using h
            subst hpr'
            obtain ⟨hq1, hq2⟩ := hq q hcq
            exact ⟨hq1, hq2, strip_idem _⟩
    · intro q hh
      rw [f2] at hh
      exact hq q hh
  · exact ⟨hp, hq⟩
  · exact ⟨hp, hq⟩
  · cases hcq : st.current_question with
    | none => exact ⟨hp, hq⟩
    | some q =>
      by_cases hqe : q.isEmpty
      · simp only [hqe, if_true]
        exact ⟨hp, hq⟩
      · simp only [hqe, Bool.false_eq_true, if_false]
        refine ⟨hp, ?_⟩
        intro q' hh
        have hh' : (some q : Option Str) = some q' := hh
        injection hh' with hh'
        subst hh'
        exact hq q hcq

theorem foldl_inv (ls : List Str) :
    ∀ st : PState,
      (∀ pr ∈ st.pairs,
        pr.question ≠ [] ∧ strip pr.question = pr.question ∧ strip pr.answer = pr.answer) →
      (∀ q, st.current_question = some q → q ≠ [] ∧ strip q = q) →
      (∀ pr ∈ (ls.foldl stepLine st).pairs,
        pr.question ≠ [] ∧ strip pr.question = pr.question ∧ strip pr.answer = pr.answer) ∧
      (∀ q, (ls.foldl stepLine st).current_question = some q → q ≠ [] ∧ strip q = q) := by
  induction ls with
  | nil => intro st hp hq; exact ⟨hp, hq⟩
  | cons l ls ih =>
    intro st hp hq
    obtain ⟨gp, gq⟩ := stepLine_inv st l hp hq
    exact ih (stepLine st l) gp gq

theorem finalize_eq_none (st : PState) (h : st.current_question = none) :
    finalize st = st.pairs := by
  unfold finalize
  rw [h]

theorem finalize_eq_some (st : PState) (q : Str) (h : st.current_question = some q) :
    finalize st = if q.isEmpty then st.pairs
                  else st.pairs ++ [⟨q, strip st.current_answer⟩] := by
  unfold finalize
  rw [h]

/-- C7: every pair returned by parse_qa_response has a non-empty question,
and both the question and the answer are fixed points of strip, i.e. they
carry no leading or trailing whitespace (the answer may be empty). -/
theorem pairs_trimmed_nonempty (text : Str) :
    ∀ pr ∈ parse_qa_response text,
      pr.question ≠ [] ∧ strip pr.question = pr.question ∧ strip pr.answer = pr.answer := by
  obtain ⟨hp, hq⟩ := foldl_inv (splitOnNl text) initState
    (by intro pr hpr; simp [initState] at hpr) (by intro q hh; simp [initState] at hh)
  intro pr hpr
  unfold parse_qa_response at hpr
  cases hcq : (parseState text).current_question with
  | none =>
    rw [finalize_eq_none _ hcq] at hpr
    exact hp pr hpr
  | some q =>
    rw [finalize_eq_some _ q hcq] at hpr
    by_cases hqe : q.isEmpty
    · rw [if_pos hqe] at hpr; exact hp pr hpr
    · rw [if_neg hqe] at hpr
      rcases List.mem_append.mp hpr with h | h
      · exact hp pr h
      · have hpr' : pr = ⟨q, strip (parseState text).current_answer⟩ := by
          simpa using h
        subst hpr'
        obtain ⟨h1, h2⟩ := hq q hcq
        exact ⟨h1, h2, strip_idem _⟩

theorem pairs_trimmed_nonempty_witness :
    (⟨"A?".toList, "B.".toList⟩ : QAPair)
        ∈ parse_qa_response ("Question 1: A?\nAnswer 1: B.".toList) ∧
    ("A?".toList ≠ [] ∧ strip ("A?".toList) = "A?".toList ∧
      strip ("B.".toList) = "B.".toList) :=
  ⟨by decide,
   pairs_trimmed_nonempty ("Question 1: A?\nAnswer 1: B.".toList)
     ⟨"A?".toList, "B.".toList⟩ (by decide)⟩

/-- The stripped text after the first colon of a line (empty when the
line has no colon). -/
def colonText (line : Str) : Str := strip ((afterColon line).getD [])

theorem stepLine_answer_state (ps : List QAPair) (Q A : Str) (a t : Str)
    (hq1 : startsWithAny qMarkers (strip a) = false)
    (ha1 : startsWithAny aMarkers (strip a) = true)
    (hc : afterColon (strip a) = some t) (ht : (strip t).isEmpty = false) :
    stepLine ⟨ps, some Q, A, false, false⟩ a =
      ⟨answerFlush ⟨ps, some Q, A, false, false⟩, some Q, strip t, false, false⟩ := by
  rw [stepLine_a_marker _ a hq1 ha1 rfl, answerBranch_some _ _ t hc ht]

theorem answer_run (Q : Str) (hQ : Q.isEmpty = false) :
    ∀ (as : List Str) (ps : List QAPair) (A : Str),
      A.isEmpty = false → strip A = A →
      (∀ a ∈ as, startsWithAny qMarkers (strip a) = false ∧
        startsWithAny aMarkers (strip a) = true ∧
        colonTailNonempty (strip a) = true) →
      finalize (as.foldl stepLine ⟨ps, some Q, A, false, false⟩)
        = ps ++ (A :: as.map fun a => colonText (strip a)).map
            (fun x => (⟨Q, x⟩ : QAPair)) := by
  intro as
  induction as with
  | nil =>
    intro ps A hA hsA _
    rw [List.foldl_nil, finalize_eq_some _ Q rfl, if_neg (by simp [hQ])]
    simp [hsA]
  | cons a as ih =>
    intro ps A hA hsA hall
    obtain ⟨hq1, ha1, hct⟩ := hall a (by simp)
    obtain ⟨t, hc, ht⟩ := (colonTailNonempty_iff _).mp hct
    rw [List.foldl_cons, stepLine_answer_state ps Q A a t hq1 ha1 hc ht]
    have hfl : answerFlush ⟨ps, some Q, A, false, false⟩ = ps ++ [⟨Q, strip A⟩] := by
      simp [answerFlush, hQ, hA]
    rw [hfl, ih (ps ++ [(⟨Q, strip A⟩ : QAPair)]) (strip t) ht (strip_idem t)
        (fun x hx => hall x (by simp [hx]))]
    simp [colonText, hc, hsA]

/-- C10: when the input consists of one question-marker line holding
non-blank text after its colon, followed by two or more answer-marker
lines (none of them starting with a question marker) each holding
non-blank text after its colon, the parser emits one pair per answer
line and every pair carries the same question text: flushing at an
answer marker does not clear the current question. -/
theorem repeated_answers_share_question
    (text qline a1 a2 : Str) (rest : List Str)
    (hsplit : splitOnNl text = qline :: a1 :: a2 :: rest)
    (hq : startsWithAny qMarkers (strip qline) = true)
    (hqt : colonTailNonempty (strip qline) = true)
    (ha : ∀ a ∈ a1 :: a2 :: rest,
        startsWithAny qMarkers (strip a) = false ∧
        startsWithAny aMarkers (strip a) = true ∧
        colonTailNonempty (strip a) = true) :
    parse_qa_response text
      = (a1 :: a2 :: rest).map
          (fun a => (⟨colonText (strip qline), colonText (strip a)⟩ : QAPair)) := by
  obtain ⟨tq, hcq, htq⟩ := (colonTailNonempty_iff _).mp hqt
  obtain ⟨hq1, ha1, hct1⟩ := ha a1 (by simp)
  obtain ⟨t1, hc1, ht1⟩ := (colonTailNonempty_iff _).mp hct1
  have hstep0 : stepLine initState qline = ⟨[], some (strip tq), [], false, false⟩ := by
    rw [stepLine_q_marker initState qline hq, questionBranch_some initState _ tq hcq htq]
    rfl
  have hstep1 : stepLine ⟨[], some (strip tq), [], false, false⟩ a1
      = ⟨[], some (strip tq), strip t1, false, false⟩ := by
    rw [stepLine_answer_state [] (strip tq) [] a1 t1 hq1 ha1 hc1 ht1]
    simp [answerFlush]
  unfold parse_qa_response parseState
  rw [hsplit, List.foldl_cons, hstep0, List.foldl_cons, hstep1]
  rw [answer_run (strip tq) htq (a2 :: rest) [] (strip t1) ht1 (strip_idem t1)
      (fun x hx => ha x (by simp [hx]))]
  simp [colonText, hcq, hc1]

theorem repeated_answers_share_question_witness :
    splitOnNl ("Question 1: Q?\nAnswer 1: A.\nAnswer 2: B.".toList)
        = ["Question 1: Q?".toList, "Answer 1: A.".toList, "Answer 2: B.".toList] ∧
    parse_qa_response ("Question 1: Q?\nAnswer 1: A.\nAnswer 2: B.".toList)
      = (["Answer 1: A.".toList, "Answer 2: B.".toList]).map
          (fun a => (⟨colonText (strip ("Question 1: Q?".toList)),
                      colonText (strip a)⟩ : QAPair)) :=
  ⟨by decide,
   repeated_answers_share_question
     ("Question 1: Q?\nAnswer 1: A.\nAnswer 2: B.".toList)
     ("Question 1: Q?".toList) ("Answer 1: A.".toList) ("Answer 2: B.".toList) []
     (by decide) (by decide) (by decide) (by decide)⟩
